import Mathlib

/-!
Verification of the `etc-os-release` crate: a parser for the
`/etc/os-release` file format.

Strings are modelled as `List Char`.  Each definition below is a shallow
embedding of the correspondingly named Rust item:

* `parse_line`, `trim_quote`, `unescape` — `src/entry.rs`
* `OsRelease.from_entries`, `OsRelease.from_lines` — `src/construct.rs`
  (`FromIterator` impls; the `IndexMap` is modelled as an association list
  with `indexMapInsert` giving IndexMap's insert semantics: an existing key
  keeps its position and gets the new value, a new key is appended)
* `OsRelease.get_value`, `get_value_as_list`, `get_value_as_url`,
  `get_value_as_date` and the named field accessors — `src/fields.rs`
  (URL and date parsing live in the external `url`/`chrono` crates, so the
  accessors are parametrised by an arbitrary parse function of type
  `Str → Except E A`, mirroring `get_value(key).map(parse).transpose()`)
-/

set_option maxHeartbeats 1000000

abbrev Str := List Char

/-- An entry in the os-release file (`OsReleaseEntry` in `src/entry.rs`). -/
structure OsReleaseEntry where
  key : Str
  value : Str
deriving DecidableEq, Repr

/-- A line in the os-release file (`OsReleaseLine` in `src/entry.rs`). -/
inductive OsReleaseLine where
  | Empty : OsReleaseLine
  | Entry : OsReleaseEntry → OsReleaseLine
deriving DecidableEq, Repr

/-- Rust `str::split_once(sep)`: split at the first occurrence of `sep`,
returning the parts before and after it, or `none` if `sep` is absent. -/
def splitOnce (sep : Char) : Str → Option (Str × Str)
  | [] => none
  | c :: cs =>
    if c = sep then some ([], cs)
    else
      match splitOnce sep cs with
      | none => none
      | some (a, b) => some (c :: a, b)

/-- Rust `str::strip_prefix(quote)` for a single-character pattern. -/
def stripPrefixC (q : Char) : Str → Option Str
  | [] => none
  | c :: cs => if c = q then some cs else none

/-- Rust `str::strip_suffix(quote)` for a single-character pattern. -/
def stripSuffixC (q : Char) (l : Str) : Option Str :=
  if l.getLast? = some q then some l.dropLast else none

/-- `trim_quote` from `src/entry.rs`: try each quote character `"` then `'`;
on a prefix match, strip the prefix quote and the suffix quote when present
(`strip_suffix(quote).unwrap_or(value)`), reporting which quote matched. -/
def trim_quote (value : Str) : Str × Option Char :=
  match stripPrefixC '"' value with
  | some v => ((stripSuffixC '"' v).getD v, some '"')
  | none =>
    match stripPrefixC '\'' value with
    | some v => ((stripSuffixC '\'' v).getD v, some '\'')
    | none => (value, none)

/-- The scanning loop of `unescape` in `src/entry.rs`; the `Bool` is the
`escaped` flag. -/
def unescapeAux : Str → Bool → Str
  | [], _ => []
  | c :: cs, true => c :: unescapeAux cs false
  | c :: cs, false =>
    if c = '\\' then unescapeAux cs true else c :: unescapeAux cs false

/-- `unescape` from `src/entry.rs`. -/
def unescape (value : Str) : Str := unescapeAux value false

/-- The value-decoding `match` inside `parse_line` (`src/entry.rs`):
single-quoted values are kept verbatim, everything else is unescaped. -/
def decodeValue (value : Str) : Str :=
  match trim_quote value with
  | (v, some '\'') => v
  | (v, _) => unescape v

/-- `parse_line` from `src/entry.rs`. -/
def parse_line (line : Str) : Option OsReleaseEntry :=
  if line = [] || line.head? = some '#' then none
  else
    match splitOnce '=' line with
    | none => none
    | some (key, value) => some ⟨key, decodeValue value⟩

/-- `OsReleaseLine::from_str` (`src/entry.rs`): an infallible classification
of one line. -/
def OsReleaseLine.from_str (s : Str) : OsReleaseLine :=
  match parse_line s with
  | none => OsReleaseLine.Empty
  | some e => OsReleaseLine.Entry e

example : parse_line "".data = none := by decide
example : parse_line "# comment".data = none := by decide
example : parse_line "A=B".data = some ⟨"A".data, "B".data⟩ := by decide
example : parse_line "A=\"B C\"".data = some ⟨"A".data, "B C".data⟩ := by decide
example : parse_line "A=\"B C\\\"\\\"\"".data = some ⟨"A".data, "B C\"\"".data⟩ := by decide
example : parse_line "A='B C\\\"\\\"'".data = some ⟨"A".data, "B C\\\"\\\"".data⟩ := by decide

/-- The parsed contents of the os-release file (`OsRelease` in `src/lib.rs`);
the `IndexMap<String, String>` is modelled as an association list whose
construction (below) preserves insertion order with unique keys. -/
structure OsRelease where
  fields : List (Str × Str)
deriving DecidableEq, Repr

/-- `IndexMap::insert` semantics: if the key already exists it keeps its
place in the order and only its value is updated; otherwise the pair is
appended at the end. -/
def indexMapInsert (k v : Str) : List (Str × Str) → List (Str × Str)
  | [] => [(k, v)]
  | (k', v') :: rest =>
    if k' = k then (k', v) :: rest else (k', v') :: indexMapInsert k v rest

/-- `FromIterator<OsReleaseEntry> for OsRelease` (`src/construct.rs`):
collect the `(key, value)` pairs into the `IndexMap` in sequence order. -/
def OsRelease.from_entries (es : List OsReleaseEntry) : OsRelease :=
  ⟨es.foldl (fun m e => indexMapInsert e.key e.value m) []⟩

/-- `FromIterator<&str> for OsRelease` (`src/construct.rs`): parse each
line, drop the blank classifications, and collect the entries. -/
def OsRelease.from_lines (lines : List Str) : OsRelease :=
  OsRelease.from_entries (lines.filterMap parse_line)

/-- `OsRelease::entries` (`src/fields.rs`): iterate the fields in map
order. -/
def OsRelease.entries (d : OsRelease) : List OsReleaseEntry :=
  d.fields.map (fun p => ⟨p.1, p.2⟩)

/-- `OsRelease::get_value` (`src/fields.rs`): `IndexMap` lookup, modelled
as the first association-list pair with the given key. -/
def OsRelease.get_value (d : OsRelease) (key : Str) : Option Str :=
  (d.fields.find? (fun p => p.1 = key)).map Prod.snd

/-- Rust `char::is_whitespace`: the Unicode `White_Space` property. -/
def rustIsWhitespace (c : Char) : Bool :=
  let n := c.toNat
  (9 ≤ n && n ≤ 13) || n = 32 || n = 0x85 || n = 0xA0 || n = 0x1680 ||
  (0x2000 ≤ n && n ≤ 0x200A) || n = 0x2028 || n = 0x2029 || n = 0x202F ||
  n = 0x205F || n = 0x3000

/-- The accumulator loop behind `str::split_whitespace`; `acc` is the
current (reversed) run of non-whitespace characters. -/
def splitWsAux : Str → Str → List Str
  | [], acc => if acc = [] then [] else [acc.reverse]
  | c :: cs, acc =>
    if rustIsWhitespace c then
      if acc = [] then splitWsAux cs [] else acc.reverse :: splitWsAux cs []
    else splitWsAux cs (c :: acc)

/-- Rust `str::split_whitespace`: the maximal runs of non-whitespace
characters, in order. -/
def split_whitespace (s : Str) : List Str := splitWsAux s []

/-- `OsRelease::get_value_as_list` (`src/fields.rs`). -/
def OsRelease.get_value_as_list (d : OsRelease) (key : Str) : Option (List Str) :=
  (d.get_value key).map split_whitespace

/-- Rust `Option::transpose` on `Option<Result<A, E>>`. -/
def rustTranspose {E A : Type} : Option (Except E A) → Except E (Option A)
  | none => .ok none
  | some (.ok a) => .ok (some a)
  | some (.error e) => .error e

/-- `OsRelease::get_value_as_url` (`src/fields.rs`):
`get_value(key).map(Url::parse).transpose()`.  `Url::parse` belongs to the
external `url` crate, so the accessor is parametrised by the parse
function. -/
def OsRelease.get_value_as_url {E U : Type} (url_parse : Str → Except E U)
    (d : OsRelease) (key : Str) : Except E (Option U) :=
  rustTranspose ((d.get_value key).map url_parse)

/-- `OsRelease::get_value_as_date` (`src/fields.rs`):
`get_value(key).map(|d| NaiveDate::parse_from_str(d, "%Y-%m-%d")).transpose()`,
parametrised by the external `chrono` parse function. -/
def OsRelease.get_value_as_date {E D : Type} (date_parse : Str → Except E D)
    (d : OsRelease) (key : Str) : Except E (Option D) :=
  rustTranspose ((d.get_value key).map date_parse)

/-- `OsRelease::name` (`src/fields.rs`): `get_value("NAME").unwrap_or("linux")`. -/
def OsRelease.name (d : OsRelease) : Str := (d.get_value "NAME".data).getD "linux".data

/-- `OsRelease::id` (`src/fields.rs`): `get_value("ID").unwrap_or("linux")`. -/
def OsRelease.id (d : OsRelease) : Str := (d.get_value "ID".data).getD "linux".data

/-- `OsRelease::id_like` (`src/fields.rs`). -/
def OsRelease.id_like (d : OsRelease) : Option (List Str) := d.get_value_as_list "ID_LIKE".data

/-- `OsRelease::pretty_name` (`src/fields.rs`):
`get_value("PRETTY_NAME").unwrap_or("Linux")`. -/
def OsRelease.pretty_name (d : OsRelease) : Str :=
  (d.get_value "PRETTY_NAME".data).getD "Linux".data

/-- `OsRelease::cpe_name` (`src/fields.rs`). -/
def OsRelease.cpe_name (d : OsRelease) : Option Str := d.get_value "CPE_NAME".data

/-- `OsRelease::variant` (`src/fields.rs`). -/
def OsRelease.variant (d : OsRelease) : Option Str := d.get_value "VARIANT".data

/-- `OsRelease::variant_id` (`src/fields.rs`). -/
def OsRelease.variant_id (d : OsRelease) : Option Str := d.get_value "VARIANT_ID".data

/-- `OsRelease::version` (`src/fields.rs`). -/
def OsRelease.version (d : OsRelease) : Option Str := d.get_value "VERSION".data

/-- `OsRelease::version_id` (`src/fields.rs`). -/
def OsRelease.version_id (d : OsRelease) : Option Str := d.get_value "VERSION_ID".data

/-- `OsRelease::version_codename` (`src/fields.rs`). -/
def OsRelease.version_codename (d : OsRelease) : Option Str :=
  d.get_value "VERSION_CODENAME".data

/-- `OsRelease::build_id` (`src/fields.rs`). -/
def OsRelease.build_id (d : OsRelease) : Option Str := d.get_value "BUILD_ID".data

/-- `OsRelease::image_id` (`src/fields.rs`). -/
def OsRelease.image_id (d : OsRelease) : Option Str := d.get_value "IMAGE_ID".data

/-- `OsRelease::image_version` (`src/fields.rs`). -/
def OsRelease.image_version (d : OsRelease) : Option Str := d.get_value "IMAGE_VERSION".data

/-- `OsRelease::home_url` (`src/fields.rs`). -/
def OsRelease.home_url {E U : Type} (url_parse : Str → Except E U) (d : OsRelease) :
    Except E (Option U) :=
  d.get_value_as_url url_parse "HOME_URL".data

/-- `OsRelease::documentation_url` (`src/fields.rs`). -/
def OsRelease.documentation_url {E U : Type} (url_parse : Str → Except E U) (d : OsRelease) :
    Except E (Option U) :=
  d.get_value_as_url url_parse "DOCUMENTATION_URL".data

/-- `OsRelease::support_url` (`src/fields.rs`). -/
def OsRelease.support_url {E U : Type} (url_parse : Str → Except E U) (d : OsRelease) :
    Except E (Option U) :=
  d.get_value_as_url url_parse "SUPPORT_URL".data

/-- `OsRelease::bug_report_url` (`src/fields.rs`). -/
def OsRelease.bug_report_url {E U : Type} (url_parse : Str → Except E U) (d : OsRelease) :
    Except E (Option U) :=
  d.get_value_as_url url_parse "BUG_REPORT_URL".data

/-- `OsRelease::privacy_policy_url` (`src/fields.rs`). -/
def OsRelease.privacy_policy_url {E U : Type} (url_parse : Str → Except E U) (d : OsRelease) :
    Except E (Option U) :=
  d.get_value_as_url url_parse "PRIVACY_POLICY_URL".data

/-- `OsRelease::support_end` (`src/fields.rs`). -/
def OsRelease.support_end {E D : Type} (date_parse : Str → Except E D) (d : OsRelease) :
    Except E (Option D) :=
  d.get_value_as_date date_parse "SUPPORT_END".data

/-- `OsRelease::logo` (`src/fields.rs`). -/
def OsRelease.logo (d : OsRelease) : Option Str := d.get_value "LOGO".data

/-- `OsRelease::ansi_color` (`src/fields.rs`). -/
def OsRelease.ansi_color (d : OsRelease) : Option Str := d.get_value "ANSI_COLOR".data

/-- `OsRelease::vendor_name` (`src/fields.rs`). -/
def OsRelease.vendor_name (d : OsRelease) : Option Str := d.get_value "VENDOR_NAME".data

/-- `OsRelease::vendor_url` (`src/fields.rs`). -/
def OsRelease.vendor_url {E U : Type} (url_parse : Str → Except E U) (d : OsRelease) :
    Except E (Option U) :=
  d.get_value_as_url url_parse "VENDOR_URL".data

/-- `OsRelease::default_hostname` (`src/fields.rs`). -/
def OsRelease.default_hostname (d : OsRelease) : Option Str :=
  d.get_value "DEFAULT_HOSTNAME".data

/-- `OsRelease::architecture` (`src/fields.rs`). -/
def OsRelease.architecture (d : OsRelease) : Option Str := d.get_value "ARCHITECTURE".data

/-- `OsRelease::sysext_level` (`src/fields.rs`). -/
def OsRelease.sysext_level (d : OsRelease) : Option Str := d.get_value "SYSEXT_LEVEL".data

/-- `OsRelease::confext_level` (`src/fields.rs`). -/
def OsRelease.confext_level (d : OsRelease) : Option Str := d.get_value "CONFEXT_LEVEL".data

/-- `OsRelease::sysext_scope` (`src/fields.rs`). -/
def OsRelease.sysext_scope (d : OsRelease) : Option (List Str) :=
  d.get_value_as_list "SYSEXT_SCOPE".data

/-- `OsRelease::confext_scope` (`src/fields.rs`). -/
def OsRelease.confext_scope (d : OsRelease) : Option (List Str) :=
  d.get_value_as_list "CONFEXT_SCOPE".data

/-- `OsRelease::portable_prefixes` (`src/fields.rs`). -/
def OsRelease.portable_prefixes (d : OsRelease) : Option (List Str) :=
  d.get_value_as_list "PORTABLE_PREFIXES".data

example : (OsRelease.from_lines ["NAME=Fedora".data, "ID=fedora".data, "VERSION_ID=32".data]).id
    = "fedora".data := by decide
example : (OsRelease.from_lines []).name = "linux".data := by decide
example : split_whitespace "system initrd".data = ["system".data, "initrd".data] := by decide

/-- Unescaping as the specification words it: scan character by character;
a backslash causes the next character to be copied literally and the
backslash itself dropped; a backslash at end-of-string is dropped with no
following character; no named escapes are recognised. -/
def unescapeSpec : Str → Str
  | [] => []
  | ['\\'] => []
  | '\\' :: c :: rest => c :: unescapeSpec rest
  | c :: rest => c :: unescapeSpec rest

theorem unescape_eq_unescapeSpec : ∀ v : Str, unescape v = unescapeSpec v := by
  intro v
  induction v using unescapeSpec.induct with
  | case1 => rfl
  | case2 => rfl
  | case3 c rest ih => simpa [unescape, unescapeAux, unescapeSpec] using ih
  | case4 c rest h1 h2 ih =>
    have hc : c ≠ '\\' := by
      intro hcc
      cases rest with
      | nil => exact h1 hcc rfl
      | cons d ds => exact h2 d ds hcc rfl
    have hs : unescapeSpec (c :: rest) = c :: unescapeSpec rest := by
      cases rest with
      | nil => simp [unescapeSpec, hc]
      | cons d ds => simp [unescapeSpec, hc]
    rw [hs, ← ih]
    simp [unescape, unescapeAux, hc]

theorem splitOnce_eq_none_iff (sep : Char) (l : Str) : splitOnce sep l = none ↔ sep ∉ l := by
  induction l with
  | nil => simp [splitOnce]
  | cons c cs ih =>
    by_cases h : c = sep
    · subst h
      simp [splitOnce]
    · cases hq : splitOnce sep cs with
      | none =>
        simp [splitOnce, h, hq]
        exact ⟨fun he => absurd he.symm h, ih.1 hq⟩
      | some p =>
        have hm : sep ∈ cs := by
          by_contra hs
          exact absurd (ih.2 hs) (by simp [hq])
        simp [splitOnce, h, hq, hm]

theorem splitOnce_eq_some (sep : Char) :
    ∀ (l a b : Str), splitOnce sep l = some (a, b) → l = a ++ sep :: b ∧ sep ∉ a := by
  intro l
  induction l with
  | nil => intro a b h; simp [splitOnce] at h
  | cons c cs ih =>
    intro a b h
    by_cases hc : c = sep
    · subst hc
      simp [splitOnce] at h
      obtain ⟨ha, hb⟩ := h
      subst ha; subst hb
      simp
    · simp [splitOnce, hc] at h
      cases hq : splitOnce sep cs with
      | none => rw [hq] at h; simp at h
      | some p =>
        rw [hq] at h
        simp at h
        obtain ⟨ha, hb⟩ := h
        obtain ⟨hcs, hns⟩ := ih p.1 p.2 (by rw [hq])
        subst hb
        rw [← ha]
        constructor
        · simp [hcs]
        · simp [hns]
          exact fun he => absurd he.symm hc

/-- C1: every input line that is empty, starts with `#`, or contains no `=`
is classified as Blank/Empty by `parse_line` / `OsReleaseLine::from_str`
and produces no Entry; every other line (non-empty, not starting with `#`,
containing at least one `=`) is classified as an Entry. -/
theorem claim1_blank_or_entry (line : Str) :
    ((line = [] ∨ line.head? = some '#' ∨ '=' ∉ line) →
      parse_line line = none ∧ OsReleaseLine.from_str line = OsReleaseLine.Empty) ∧
    (line ≠ [] → line.head? ≠ some '#' → '=' ∈ line →
      ∃ e, parse_line line = some e ∧
        OsReleaseLine.from_str line = OsReleaseLine.Entry e) := by
  constructor
  · intro h
    have hp : parse_line line = none := by
      rcases h with h | h | h
      · simp [parse_line, h]
      · simp [parse_line, h]
      · have hq : splitOnce '=' line = none := (splitOnce_eq_none_iff '=' line).2 h
        by_cases hg : line = [] ∨ line.head? = some '#'
        · rcases hg with hg | hg <;> simp [parse_line, hg]
        · push_neg at hg
          simp [parse_line, hg.1, hg.2, hq]
    exact ⟨hp, by simp [OsReleaseLine.from_str, hp]⟩
  · intro h1 h2 h3
    obtain ⟨p, hp⟩ : ∃ p, splitOnce '=' line = some p := by
      cases hq : splitOnce '=' line with
      | none => exact absurd ((splitOnce_eq_none_iff '=' line).1 hq) (by simp [h3])
      | some p => exact ⟨p, rfl⟩
    refine ⟨⟨p.1, decodeValue p.2⟩, ?_, ?_⟩ <;>
      simp [parse_line, OsReleaseLine.from_str, h1, h2, hp]

theorem claim1_witness :
    (parse_line "# comment".data = none ∧
      OsReleaseLine.from_str "# comment".data = OsReleaseLine.Empty) ∧
    (∃ e, parse_line "A=B".data = some e ∧
      OsReleaseLine.from_str "A=B".data = OsReleaseLine.Entry e) :=
  ⟨(claim1_blank_or_entry "# comment".data).1 (Or.inr (Or.inl (by decide))),
   (claim1_blank_or_entry "A=B".data).2 (by decide) (by decide) (by decide)⟩

/-- C2: for unquoted or double-quoted values `parse_line` strips the
surrounding double quotes (when both are present) and then
backslash-unescapes, where unescaping drops each backslash and copies the
following character literally (no named escapes) and drops a trailing
backslash; in particular `A="B C\"\""` parses to the entry with key `A`
and value `B C""`. -/
theorem claim2_double_quote_unescape :
    (∀ v : Str, unescape v = unescapeSpec v) ∧
    (∀ v : Str, v.head? ≠ some '"' → v.head? ≠ some '\'' →
      decodeValue v = unescape v) ∧
    (∀ rest inner : Str, stripSuffixC '"' rest = some inner →
      decodeValue ('"' :: rest) = unescape inner) ∧
    parse_line "A=\"B C\\\"\\\"\"".data = some ⟨"A".data, "B C\"\"".data⟩ := by
  refine ⟨unescape_eq_unescapeSpec, ?_, ?_, by decide⟩
  · intro v h1 h2
    cases v with
    | nil => rfl
    | cons c cs =>
      simp only [List.head?_cons, ne_eq, Option.some.injEq] at h1 h2
      simp [decodeValue, trim_quote, stripPrefixC, h1, h2]
  · intro rest inner h
    simp [decodeValue, trim_quote, stripPrefixC, h]

theorem claim2_witness :
    decodeValue "B".data = unescape "B".data ∧
    decodeValue ('"' :: "B C\\\"\\\"\"".data) = unescape "B C\\\"\\\"".data :=
  ⟨claim2_double_quote_unescape.2.1 "B".data (by decide) (by decide),
   claim2_double_quote_unescape.2.2.1 "B C\\\"\\\"\"".data "B C\\\"\\\"".data (by decide)⟩

/-- C3: a value beginning with a single quote has the quote pair stripped
and the enclosed text used verbatim, with no backslash-unescaping; in
particular `A='B C\"\"'` parses to the entry with key `A` and value
`B C\"\"`, backslashes preserved. -/
theorem claim3_single_quote_verbatim :
    (∀ rest inner : Str, stripSuffixC '\'' rest = some inner →
      decodeValue ('\'' :: rest) = inner) ∧
    parse_line "A='B C\\\"\\\"'".data = some ⟨"A".data, "B C\\\"\\\"".data⟩ := by
  refine ⟨?_, by decide⟩
  intro rest inner h
  simp [decodeValue, trim_quote, stripPrefixC, h]

theorem claim3_witness : decodeValue ('\'' :: "B C'".data) = "B C".data :=
  claim3_single_quote_verbatim.1 "B C'".data "B C".data (by decide)

/-- C6 counterexample: the line `=V` is neither empty nor a comment and
contains `=`, so `parse_line` produces an Entry — and its key is the empty
string, refuting "no Entry ever carries an empty key". -/
theorem claim6_counterexample :
    parse_line "=V".data = some ⟨([] : Str), "V".data⟩ := by decide

/-- C6 amended: an Entry produced by `parse_line` has an empty key exactly
when the input line begins with `=`; for every other line a produced
Entry's key is non-empty (and empty/comment lines still yield no Entry,
by `claim1_blank_or_entry`). -/
theorem claim6_empty_key_iff (line : Str) (e : OsReleaseEntry)
    (h : parse_line line = some e) : e.key = [] ↔ line.head? = some '=' := by
  unfold parse_line at h
  split at h
  · exact absurd h (by simp)
  · cases hq : splitOnce '=' line with
    | none => rw [hq] at h; exact absurd h (by simp)
    | some p =>
      rw [hq] at h
      simp only [Option.some.injEq] at h
      obtain ⟨hline, hnotin⟩ := splitOnce_eq_some '=' line p.1 p.2 hq
      subst h
      cases hk : p.1 with
      | nil =>
        rw [hk] at hline
        simp [hline]
      | cons c ks =>
        rw [hk] at hline hnotin
        simp only [List.mem_cons, not_or] at hnotin
        simp [hline, Ne.symm hnotin.1]

theorem claim6_witness :
    ((⟨"A".data, "B".data⟩ : OsReleaseEntry).key = [] ↔
      "A=B".data.head? = some '=') :=
  claim6_empty_key_iff "A=B".data ⟨"A".data, "B".data⟩ (by decide)

/-- C7 counterexample: on the line `A="B C` (double-quote prefix, no
closing quote) the decoded value is `B C` — the leading quote character is
stripped, not kept as a literal part of the value. -/
theorem claim7_counterexample :
    parse_line "A=\"B C".data = some ⟨"A".data, "B C".data⟩ ∧
    '"' ∉ "B C".data := by decide

/-- C7 amended: for a value beginning with a double quote that has no
matching closing quote, the leading quote is stripped and the remainder is
backslash-unescaped as usual (no character of the quote survives into the
value). -/
theorem claim7_unmatched_quote_stripped (rest : Str)
    (h : stripSuffixC '"' rest = none) :
    decodeValue ('"' :: rest) = unescape rest := by
  simp [decodeValue, trim_quote, stripPrefixC, h]

theorem claim7_witness : decodeValue ('"' :: "B C".data) = unescape "B C".data :=
  claim7_unmatched_quote_stripped "B C".data (by decide)

theorem find?_indexMapInsert_self (k v : Str) (m : List (Str × Str)) :
    ((indexMapInsert k v m).find? (fun p => p.1 = k)).map Prod.snd = some v := by
  induction m with
  | nil => simp [indexMapInsert, List.find?]
  | cons p rest ih =>
    obtain ⟨k', v'⟩ := p
    by_cases h : k' = k
    · subst h; simp [indexMapInsert, List.find?]
    · simp only [indexMapInsert, if_neg h]
      rw [List.find?_cons_of_neg _ (by simpa using h)]
      exact ih

theorem find?_indexMapInsert_ne (k v key : Str) (m : List (Str × Str))
    (h : key ≠ k) :
    (indexMapInsert k v m).find? (fun p => p.1 = key)
      = m.find? (fun p => p.1 = key) := by
  induction m with
  | nil => simp [indexMapInsert, List.find?, Ne.symm h]
  | cons p rest ih =>
    obtain ⟨k', v'⟩ := p
    by_cases hk : k' = k
    · subst hk
      have h1 : indexMapInsert k' v ((k', v') :: rest) = (k', v) :: rest := by
        simp [indexMapInsert]
      rw [h1]
      have hne : k' ≠ key := Ne.symm h
      rw [List.find?_cons_of_neg _ (by simpa using hne),
        List.find?_cons_of_neg _ (by simpa using hne)]
    · simp only [indexMapInsert, if_neg hk]
      by_cases hk2 : k' = key
      · subst hk2
        rw [List.find?_cons_of_pos _ (by simp), List.find?_cons_of_pos _ (by simp)]
      · rw [List.find?_cons_of_neg _ (by simpa using hk2),
          List.find?_cons_of_neg _ (by simpa using hk2)]
        exact ih

theorem get_value_foldl (es : List OsReleaseEntry) :
    ∀ (m : List (Str × Str)) (key : Str),
      ((es.foldl (fun m e => indexMapInsert e.key e.value m) m).find?
        (fun p => p.1 = key)).map Prod.snd
      = match es.reverse.find? (fun e => e.key = key) with
        | some e => some e.value
        | none => (m.find? (fun p => p.1 = key)).map Prod.snd := by
  induction es with
  | nil => intro m key; simp
  | cons e rest ih =>
    intro m key
    rw [List.foldl_cons, ih, List.reverse_cons, List.find?_append]
    cases hr : rest.reverse.find? (fun e => e.key = key) with
    | some e' => rfl
    | none =>
      by_cases hk : e.key = key
      · subst hk
        rw [show (List.find? (fun e' => e'.key = e.key) [e]) = some e from
          List.find?_cons_of_pos _ (by simp)]
        simp [find?_indexMapInsert_self]
      · rw [show (List.find? (fun e' => e'.key = key) [e]) = none from by
          rw [List.find?_cons_of_neg _ (by simpa using hk)]; rfl]
        simp [find?_indexMapInsert_ne e.key e.value key m (Ne.symm hk)]

/-- C4: building an `OsRelease` from a sequence of entries keeps, for every
key, the value of the last entry in the sequence with that key (later
duplicates overwrite earlier ones); in particular a two-entry sequence
with a repeated key keeps only the later value. -/
theorem claim4_last_value_wins :
    (∀ (es : List OsReleaseEntry) (key : Str),
      (OsRelease.from_entries es).get_value key
        = (es.reverse.find? (fun e => e.key = key)).map OsReleaseEntry.value) ∧
    (∀ (k v1 v2 : Str),
      (OsRelease.from_entries [⟨k, v1⟩, ⟨k, v2⟩]).get_value k = some v2) := by
  have main : ∀ (es : List OsReleaseEntry) (key : Str),
      (OsRelease.from_entries es).get_value key
        = (es.reverse.find? (fun e => e.key = key)).map OsReleaseEntry.value := by
    intro es key
    unfold OsRelease.from_entries OsRelease.get_value
    rw [get_value_foldl]
    cases h : es.reverse.find? (fun e => e.key = key) <;> simp [h]
  refine ⟨main, ?_⟩
  intro k v1 v2
  rw [main]
  simp [List.find?]

/-- C5 counterexample: on a Document built from empty input, `name()`
returns the literal `"linux"`, not the presentation value `"Linux"` — and
`pretty_name()` (an accessor other than `name`/`id`) returns the default
`"Linux"` rather than an absent value. -/
theorem claim5_counterexample :
    ¬ ((OsRelease.from_lines []).name = "Linux".data) := by decide

/-- C5 amended: constructing an `OsRelease` from empty input yields a
Document in which `name()` and `id()` both fall back to the literal string
`"linux"`, `pretty_name()` falls back to the literal string `"Linux"`, and
every other accessor returns absent (`none`, or `Except.ok none` for the
URL/date accessors, for any parse function). -/
theorem claim5_empty_defaults :
    (OsRelease.from_lines []).name = "linux".data ∧
    (OsRelease.from_lines []).id = "linux".data ∧
    (OsRelease.from_lines []).pretty_name = "Linux".data ∧
    (OsRelease.from_lines []).id_like = none ∧
    (OsRelease.from_lines []).cpe_name = none ∧
    (OsRelease.from_lines []).variant = none ∧
    (OsRelease.from_lines []).variant_id = none ∧
    (OsRelease.from_lines []).version = none ∧
    (OsRelease.from_lines []).version_id = none ∧
    (OsRelease.from_lines []).version_codename = none ∧
    (OsRelease.from_lines []).build_id = none ∧
    (OsRelease.from_lines []).image_id = none ∧
    (OsRelease.from_lines []).image_version = none ∧
    (OsRelease.from_lines []).logo = none ∧
    (OsRelease.from_lines []).ansi_color = none ∧
    (OsRelease.from_lines []).vendor_name = none ∧
    (OsRelease.from_lines []).default_hostname = none ∧
    (OsRelease.from_lines []).architecture = none ∧
    (OsRelease.from_lines []).sysext_level = none ∧
    (OsRelease.from_lines []).confext_level = none ∧
    (OsRelease.from_lines []).sysext_scope = none ∧
    (OsRelease.from_lines []).confext_scope = none ∧
    (OsRelease.from_lines []).portable_prefixes = none ∧
    (∀ (E U : Type) (url_parse : Str → Except E U),
      OsRelease.home_url url_parse (OsRelease.from_lines []) = .ok none ∧
      OsRelease.documentation_url url_parse (OsRelease.from_lines []) = .ok none ∧
      OsRelease.support_url url_parse (OsRelease.from_lines []) = .ok none ∧
      OsRelease.bug_report_url url_parse (OsRelease.from_lines []) = .ok none ∧
      OsRelease.privacy_policy_url url_parse (OsRelease.from_lines []) = .ok none ∧
      OsRelease.vendor_url url_parse (OsRelease.from_lines []) = .ok none) ∧
    (∀ (E D : Type) (date_parse : Str → Except E D),
      OsRelease.support_end date_parse (OsRelease.from_lines []) = .ok none) := by
  repeat' apply And.intro
  all_goals try decide
  · intro E U url_parse
    repeat' apply And.intro
    all_goals rfl
  · intro E D date_parse
    rfl

/-- C8: for every Document and key, the URL accessor (and likewise the date
accessor) returns `Ok(None)` when the key is absent, `Ok(Some(parsed))`
when the key is present and its raw value parses, and an error exactly when
the key is present and its raw value fails to parse; the result depends
only on that key's raw value, so a coercion failure is local to the single
accessor call and leaves every other field's accessor result unchanged. -/
theorem claim8_url_date_accessors {E U E2 D : Type}
    (url_parse : Str → Except E U) (date_parse : Str → Except E2 D)
    (d : OsRelease) (key : Str) :
    (d.get_value key = none →
      d.get_value_as_url url_parse key = .ok none ∧
      d.get_value_as_date date_parse key = .ok none) ∧
    (∀ v u, d.get_value key = some v → url_parse v = .ok u →
      d.get_value_as_url url_parse key = .ok (some u)) ∧
    (∀ v err, d.get_value key = some v → url_parse v = .error err →
      d.get_value_as_url url_parse key = .error err) ∧
    ((∃ err, d.get_value_as_url url_parse key = .error err) ↔
      (∃ v err, d.get_value key = some v ∧ url_parse v = .error err)) ∧
    (∀ v x, d.get_value key = some v → date_parse v = .ok x →
      d.get_value_as_date date_parse key = .ok (some x)) ∧
    (∀ v err, d.get_value key = some v → date_parse v = .error err →
      d.get_value_as_date date_parse key = .error err) ∧
    (∀ d2 : OsRelease, d2.get_value key = d.get_value key →
      d2.get_value_as_url url_parse key = d.get_value_as_url url_parse key ∧
      d2.get_value_as_date date_parse key = d.get_value_as_date date_parse key) := by
  refine ⟨?_, ?_, ?_, ?_, ?_, ?_, ?_⟩
  · intro h
    exact ⟨by simp [OsRelease.get_value_as_url, h, rustTranspose],
      by simp [OsRelease.get_value_as_date, h, rustTranspose]⟩
  · intro v u hv hu
    simp [OsRelease.get_value_as_url, hv, hu, rustTranspose]
  · intro v err hv he
    simp [OsRelease.get_value_as_url, hv, he, rustTranspose]
  · constructor
    · rintro ⟨err, herr⟩
      cases hv : d.get_value key with
      | none =>
        rw [OsRelease.get_value_as_url, hv] at herr
        exact absurd herr (by simp [rustTranspose])
      | some v =>
        cases hp : url_parse v with
        | ok u =>
          rw [OsRelease.get_value_as_url, hv] at herr
          simp [hp, rustTranspose] at herr
        | error e2 =>
          exact ⟨v, e2, rfl, hp⟩

    · rintro ⟨v, err, hv, hp⟩
      exact ⟨err, by simp [OsRelease.get_value_as_url, hv, hp, rustTranspose]⟩
  · intro v x hv hx
    simp [OsRelease.get_value_as_date, hv, hx, rustTranspose]
  · intro v err hv he
    simp [OsRelease.get_value_as_date, hv, he, rustTranspose]
  · intro d2 h
    exact ⟨by simp [OsRelease.get_value_as_url, h],
      by simp [OsRelease.get_value_as_date, h]⟩

theorem claim8_witness :
    (OsRelease.from_lines ["HOME_URL=x".data]).get_value_as_url
      (fun s => if s = "x".data then Except.ok 0 else Except.error 1)
      "HOME_URL".data = .ok (some 0) ∧
    (OsRelease.from_lines ["HOME_URL=x".data]).get_value_as_url
      (fun s => if s = "y".data then Except.ok 0 else Except.error 1)
      "HOME_URL".data = .error 1 ∧
    (OsRelease.from_lines ["HOME_URL=x".data]).get_value_as_date
      (fun s => if s = "x".data then Except.ok 7 else Except.error 9)
      "SUPPORT_END".data = .ok none :=
  ⟨(claim8_url_date_accessors
      (fun s => if s = "x".data then Except.ok 0 else Except.error 1)
      (fun s => if s = "x".data then Except.ok 7 else Except.error 9)
      (OsRelease.from_lines ["HOME_URL=x".data]) "HOME_URL".data).2.1
      "x".data 0 (by decide) (by rfl),
   (claim8_url_date_accessors
      (fun s => if s = "y".data then Except.ok 0 else Except.error 1)
      (fun s => if s = "x".data then Except.ok 7 else Except.error 9)
      (OsRelease.from_lines ["HOME_URL=x".data]) "HOME_URL".data).2.2.1
      "x".data 1 (by decide) (by rfl),
   ((claim8_url_date_accessors
      (fun s => if s = "x".data then Except.ok 0 else Except.error 1)
      (fun s => if s = "x".data then Except.ok 7 else Except.error 9)
      (OsRelease.from_lines ["HOME_URL=x".data]) "SUPPORT_END".data).1
      (by decide)).2⟩

theorem splitWsAux_tokens :
    ∀ (l acc : Str), (∀ c ∈ acc, rustIsWhitespace c = false) →
      ∀ t ∈ splitWsAux l acc, t ≠ [] ∧ ∀ c ∈ t, rustIsWhitespace c = false := by
  intro l
  induction l with
  | nil =>
    intro acc hacc t ht
    by_cases h : acc = []
    · simp [splitWsAux, h] at ht
    · simp [splitWsAux, h] at ht
      subst ht
      exact ⟨by simpa using h, fun c hc => hacc c (by simpa using hc)⟩
  | cons c cs ih =>
    intro acc hacc t ht
    by_cases hw : rustIsWhitespace c
    · by_cases h : acc = []
      · rw [show splitWsAux (c :: cs) acc = splitWsAux cs [] from by
          simp [splitWsAux, hw, h]] at ht
        exact ih [] (by simp) t ht
      · rw [show splitWsAux (c :: cs) acc = acc.reverse :: splitWsAux cs [] from by
          simp [splitWsAux, hw, h]] at ht
        rcases List.mem_cons.1 ht with ht | ht
        · subst ht
          exact ⟨by simpa using h, fun d hd => hacc d (by simpa using hd)⟩
        · exact ih [] (by simp) t ht
    · rw [show splitWsAux (c :: cs) acc = splitWsAux cs (c :: acc) from by
        simp [splitWsAux, hw]] at ht
      refine ih (c :: acc) ?_ t ht
      intro d hd
      rcases List.mem_cons.1 hd with hd | hd
      · subst hd; simpa using hw
      · exact hacc d hd

theorem splitWsAux_join :
    ∀ (l acc : Str),
      (splitWsAux l acc).flatten = acc.reverse ++ l.filter (fun c => !rustIsWhitespace c) := by
  intro l
  induction l with
  | nil =>
    intro acc
    by_cases h : acc = [] <;> simp [splitWsAux, h]
  | cons c cs ih =>
    intro acc
    by_cases hw : rustIsWhitespace c
    · by_cases h : acc = []
      · rw [show splitWsAux (c :: cs) acc = splitWsAux cs [] from by
          simp [splitWsAux, hw, h]]
        simp [ih, h, List.filter_cons, hw]
      · rw [show splitWsAux (c :: cs) acc = acc.reverse :: splitWsAux cs [] from by
          simp [splitWsAux, hw, h]]
        simp [ih, List.filter_cons, hw]
    · rw [show splitWsAux (c :: cs) acc = splitWsAux cs (c :: acc) from by
        simp [splitWsAux, hw]]
      simp [ih, List.filter_cons, hw]

/-- C9: `get_value_as_list` is absent exactly when the key is absent; when
present it splits the raw value on runs of whitespace into the finite,
in-order sequence of its non-whitespace runs — every token is non-empty
and whitespace-free, and concatenating the tokens recovers exactly the
non-whitespace characters of the value in order; on the value
`system initrd` it yields exactly the tokens `system`, `initrd`; and the
result is restartable (re-evaluating the accessor yields the same
sequence). -/
theorem claim9_list_accessor (d : OsRelease) (key : Str) :
    (d.get_value_as_list key = none ↔ d.get_value key = none) ∧
    (∀ v, d.get_value key = some v →
      d.get_value_as_list key = some (split_whitespace v)) ∧
    (∀ v, d.get_value key = some v →
      (∀ t ∈ split_whitespace v, t ≠ [] ∧ ∀ c ∈ t, rustIsWhitespace c = false) ∧
      (split_whitespace v).flatten = v.filter (fun c => !rustIsWhitespace c)) ∧
    (d.get_value key = some "system initrd".data →
      d.get_value_as_list key = some ["system".data, "initrd".data]) ∧
    d.get_value_as_list key = d.get_value_as_list key := by
  refine ⟨?_, ?_, ?_, ?_, rfl⟩
  · simp [OsRelease.get_value_as_list]
  · intro v hv
    simp [OsRelease.get_value_as_list, hv]
  · intro v hv
    exact ⟨splitWsAux_tokens v [] (by simp), by simpa using splitWsAux_join v []⟩
  · intro hv
    simp only [OsRelease.get_value_as_list, hv, Option.map_some, Option.some.injEq]
    decide

theorem claim9_witness :
    (OsRelease.from_lines ["SYSEXT_SCOPE=system initrd".data]).get_value_as_list
      "SYSEXT_SCOPE".data = some ["system".data, "initrd".data] :=
  (claim9_list_accessor (OsRelease.from_lines ["SYSEXT_SCOPE=system initrd".data])
    "SYSEXT_SCOPE".data).2.2.2.1 (by decide)

/-- First occurrences of a key list, in order; `seen` collects the keys
already emitted.  Mirrors the position-keeping behaviour of
`IndexMap::insert` at the level of key sequences. -/
def dedupFirstAux (seen : List Str) : List Str → List Str
  | [] => []
  | k :: ks =>
    if k ∈ seen then dedupFirstAux seen ks else k :: dedupFirstAux (k :: seen) ks

/-- Keys of an entry sequence in order of first occurrence. -/
def firstKeys (ks : List Str) : List Str := dedupFirstAux [] ks

/-- Value of the last entry with key `k` in a sequence (arbitrary default
for keys that do not occur). -/
def lastValue (es : List OsReleaseEntry) (k : Str) : Str :=
  ((es.reverse.find? (fun e => e.key = k)).map OsReleaseEntry.value).getD []

theorem from_entries_concat (es : List OsReleaseEntry) (e : OsReleaseEntry) :
    (OsRelease.from_entries (es ++ [e])).fields
      = indexMapInsert e.key e.value (OsRelease.from_entries es).fields := by
  simp [OsRelease.from_entries, List.foldl_append]

theorem dedupFirstAux_concat (ks : List Str) :
    ∀ (seen : List Str) (k : Str),
      dedupFirstAux seen (ks ++ [k])
        = dedupFirstAux seen ks ++ (if k ∈ seen ∨ k ∈ ks then [] else [k]) := by
  induction ks with
  | nil =>
    intro seen k
    by_cases h : k ∈ seen <;> simp [dedupFirstAux, h]
  | cons a ks' ih =>
    intro seen k
    by_cases ha : a ∈ seen
    · simp only [List.cons_append, dedupFirstAux, if_pos ha, List.append_eq]
      rw [ih seen k]
      have hcond : (k ∈ seen ∨ k ∈ ks') ↔ (k ∈ seen ∨ k ∈ a :: ks') := by
        simp only [List.mem_cons]
        constructor
        · rintro (h | h)
          · exact Or.inl h
          · exact Or.inr (Or.inr h)
        · rintro (h | h | h)
          · exact Or.inl h
          · exact Or.inl (h ▸ ha)
          · exact Or.inr h
      rw [if_congr hcond rfl rfl]
    · simp only [List.cons_append, dedupFirstAux, if_neg ha, List.append_eq]
      rw [ih (a :: seen) k]
      have hcond : (k ∈ a :: seen ∨ k ∈ ks') ↔ (k ∈ seen ∨ k ∈ a :: ks') := by
        simp only [List.mem_cons]
        tauto
      rw [if_congr hcond rfl rfl]

theorem lastValue_concat (es : List OsReleaseEntry) (e : OsReleaseEntry) (k : Str) :
    lastValue (es ++ [e]) k = if e.key = k then e.value else lastValue es k := by
  unfold lastValue
  rw [List.reverse_append]
  simp only [List.reverse_cons, List.reverse_nil, List.nil_append, List.singleton_append]
  by_cases h : e.key = k
  · rw [List.find?_cons_of_pos _ (by simpa using h), if_pos h]
    simp
  · rw [List.find?_cons_of_neg _ (by simpa using h), if_neg h]

theorem dedupFirstAux_subset (ks : List Str) :
    ∀ (seen : List Str) (k : Str), k ∈ dedupFirstAux seen ks → k ∈ ks := by
  induction ks with
  | nil => intro seen k h; simp [dedupFirstAux] at h
  | cons a ks' ih =>
    intro seen k h
    by_cases ha : a ∈ seen
    · rw [dedupFirstAux, if_pos ha] at h
      exact List.mem_cons_of_mem a (ih seen k h)
    · rw [dedupFirstAux, if_neg ha] at h
      rcases List.mem_cons.1 h with h | h
      · exact h ▸ List.mem_cons_self a ks'
      · exact List.mem_cons_of_mem a (ih (a :: seen) k h)

theorem dedupFirstAux_nodup (ks : List Str) :
    ∀ seen : List Str,
      (dedupFirstAux seen ks).Nodup ∧ ∀ k ∈ dedupFirstAux seen ks, k ∉ seen := by
  induction ks with
  | nil => intro seen; simp [dedupFirstAux]
  | cons a ks' ih =>
    intro seen
    by_cases ha : a ∈ seen
    · rw [dedupFirstAux, if_pos ha]
      exact ih seen
    · rw [dedupFirstAux, if_neg ha]
      obtain ⟨hnd, hnin⟩ := ih (a :: seen)
      refine ⟨List.nodup_cons.2 ⟨?_, hnd⟩, ?_⟩
      · intro hmem
        exact hnin a hmem (List.mem_cons_self a seen)
      · intro k hk
        rcases List.mem_cons.1 hk with hk | hk
        · exact hk ▸ ha
        · exact fun hs => hnin k hk (List.mem_cons_of_mem a hs)

theorem mem_dedupFirstAux (ks : List Str) :
    ∀ (seen : List Str) (k : Str), k ∈ ks → k ∈ seen ∨ k ∈ dedupFirstAux seen ks := by
  induction ks with
  | nil => intro seen k h; simp at h
  | cons a ks' ih =>
    intro seen k h
    by_cases ha : a ∈ seen
    · rw [dedupFirstAux, if_pos ha]
      rcases List.mem_cons.1 h with h | h
      · exact Or.inl (h ▸ ha)
      · exact ih seen k h
    · rw [dedupFirstAux, if_neg ha]
      rcases List.mem_cons.1 h with h | h
      · exact Or.inr (h ▸ List.mem_cons_self a _)
      · rcases ih (a :: seen) k h with hs | hs
        · rcases List.mem_cons.1 hs with hs | hs
          · exact Or.inr (hs ▸ List.mem_cons_self a _)
          · exact Or.inl hs
        · exact Or.inr (List.mem_cons_of_mem a hs)

theorem insert_map_mem (L : List Str) (g : Str → Str) (k v : Str)
    (hk : k ∈ L) (hnd : L.Nodup) :
    indexMapInsert k v (L.map fun x => (x, g x))
      = L.map fun x => (x, if x = k then v else g x) := by
  induction L with
  | nil => simp at hk
  | cons a L' ih =>
    obtain ⟨hna, hnd'⟩ := List.nodup_cons.1 hnd
    by_cases hak : a = k
    · subst hak
      simp only [List.map_cons, indexMapInsert, eq_self_iff_true, if_true]
      congr 1
      apply List.map_congr_left
      intro x hx
      rw [if_neg]
      intro hxa
      exact hna (hxa ▸ hx)
    · have hk' : k ∈ L' := by
        rcases List.mem_cons.1 hk with h | h
        · exact absurd h.symm hak
        · exact h
      simp only [List.map_cons, indexMapInsert, if_neg hak, ih hk' hnd']

theorem insert_map_not_mem (L : List Str) (g : Str → Str) (k v : Str)
    (hk : k ∉ L) :
    indexMapInsert k v (L.map fun x => (x, g x))
      = (L.map fun x => (x, g x)) ++ [(k, v)] := by
  induction L with
  | nil => simp [indexMapInsert]
  | cons a L' ih =>
    have hak : a ≠ k := fun h => hk (h ▸ List.mem_cons_self a L')
    have hk' : k ∉ L' := fun h => hk (List.mem_cons_of_mem a h)
    simp only [List.map_cons, indexMapInsert, if_neg hak, ih hk', List.cons_append]

/-- C10: `entries()` iterates the fields in order of each key's first
insertion; a key occurring multiple times keeps the iteration position of
its first occurrence while carrying the value of its last occurrence. -/
theorem claim10_iteration_order (es : List OsReleaseEntry) :
    (OsRelease.from_entries es).entries
      = (firstKeys (es.map OsReleaseEntry.key)).map
          (fun k => ⟨k, lastValue es k⟩) := by
  have main : ∀ es : List OsReleaseEntry,
      (OsRelease.from_entries es).fields
        = (firstKeys (es.map OsReleaseEntry.key)).map
            (fun k => (k, lastValue es k)) := by
    intro es
    induction es using List.reverseRecOn with
    | nil => rfl
    | append_singleton es e ih =>
      rw [from_entries_concat, ih, List.map_append,
        show List.map OsReleaseEntry.key [e] = [e.key] from rfl]
      unfold firstKeys
      rw [dedupFirstAux_concat]
      by_cases hk : e.key ∈ es.map OsReleaseEntry.key
      · rw [if_pos (Or.inr hk), List.append_nil]
        have hmem : e.key ∈ dedupFirstAux [] (es.map OsReleaseEntry.key) :=
          (mem_dedupFirstAux _ [] e.key hk).resolve_left (by simp)
        have hnd := (dedupFirstAux_nodup (es.map OsReleaseEntry.key) []).1
        rw [insert_map_mem _ _ _ _ hmem hnd]
        apply List.map_congr_left
        intro a _
        rw [lastValue_concat]
        by_cases hak : a = e.key
        · rw [if_pos hak, if_pos hak.symm]
        · rw [if_neg hak, if_neg (fun h => hak h.symm)]
      · rw [if_neg (by simpa using hk)]
        have hnmem : e.key ∉ dedupFirstAux [] (es.map OsReleaseEntry.key) :=
          fun h => hk (dedupFirstAux_subset _ [] e.key h)
        rw [insert_map_not_mem _ _ _ _ hnmem, List.map_append]
        congr 1
        · apply List.map_congr_left
          intro a ha
          rw [lastValue_concat]
          have hne : a ≠ e.key :=
            fun h => hk (h ▸ dedupFirstAux_subset _ [] a ha)
          rw [if_neg (fun h => hne h.symm)]
        · simp [lastValue_concat]
  rw [OsRelease.entries, main, List.map_map]
  rfl
